import Mathlib

/-!
Verification of the tracker repository's handle-processing and aggregation
engine against its specification.

The Python sources are embedded shallowly:
`cf_multi_stats.py`'s `fetch_all_submissions` and `summarize_handles`, and
`app.py`'s `index` handler (window parsing and person-level aggregation).
Python dicts are modelled as insertion-ordered association lists, which
matches CPython's guaranteed dict ordering; machine integers are `Int`/`Nat`
(Python integers are unbounded); Python floats produced by `sum(...)/len(...)`
are modelled as exact rationals.  Components of the system that `app.py`
imports but whose definitions are not part of the source snapshot
(`_process_handle`'s page fetcher, window filter and cache store) are
modelled from the specification and marked as such in their doc comments.
-/

/-- A raw submission record from the remote API.  Fields that Python reads
with `dict.get` (and which may therefore be absent) are `Option`s. -/
structure Submission where
  creationTimeSeconds : Option Int
  verdict : Option String
  contestId : Option Int
  index : Option String
  rating : Option Int
  tags : List String
deriving DecidableEq

/-- The canonical dedup key `(contestId, index)`; both components come from
`dict.get` on the problem record and may be absent. -/
abbrev ProblemKey := Option Int × Option String

/-- `prob.get("contestId"), prob.get("index")` of a submission's problem. -/
def subKey (s : Submission) : ProblemKey := (s.contestId, s.index)

/-- A Python dict mapping ProblemKey to optional rating, as an
insertion-ordered association list (keys unique by construction). -/
abbrev SolvedMap := List (ProblemKey × Option Int)

/-- Whether key `k` is present in the map (`key in d` in Python). -/
def hasKey (m : SolvedMap) (k : ProblemKey) : Bool :=
  (m.find? fun p => decide (p.1 = k)).isSome

/-- The rating stored for `k`, if `k` is present (`d[k]` guarded by `in`). -/
def lookupRating (m : SolvedMap) (k : ProblemKey) : Option (Option Int) :=
  (m.find? fun p => decide (p.1 = k)).map (fun p => p.2)

/-- `dict.setdefault(k, r)`: insert `(k, r)` only when `k` is absent. -/
def setdefault (m : SolvedMap) (k : ProblemKey) (r : Option Int) : SolvedMap :=
  if hasKey m k then m else m ++ [(k, r)]

/-- `True` for years with 366 days (proleptic Gregorian calendar, as used by
Python's `datetime`). -/
def isLeapYear (y : Nat) : Bool :=
  (y % 4 == 0 && y % 100 != 0) || y % 400 == 0

/-- Number of days in month `m` of year `y`. -/
def daysInMonth (y m : Nat) : Nat :=
  if m = 2 then (if isLeapYear y then 29 else 28)
  else if m = 4 ∨ m = 6 ∨ m = 9 ∨ m = 11 then 30
  else 31

/-- Days from 1970-01-01 to the given calendar date (for years ≥ 1970). -/
def daysSinceEpoch (y m d : Nat) : Nat :=
  (List.range (y - 1970)).foldl
    (fun acc i => acc + (if isLeapYear (1970 + i) then 366 else 365)) 0
  + (List.range (m - 1)).foldl (fun acc i => acc + daysInMonth y (i + 1)) 0
  + (d - 1)

/-- `datetime(y, m, d, tzinfo=timezone.utc).timestamp()` as an integer:
epoch seconds of midnight UTC of the given date. -/
def dateToTimestamp (y m d : Nat) : Int :=
  86400 * (daysSinceEpoch y m d : Int)

/-- `START_TS` from cf_multi_stats.py: epoch seconds of 2025-11-01 00:00 UTC. -/
def START_TS : Int := dateToTimestamp 2025 11 1

/-- `PAGE_SIZE` from cf_multi_stats.py. -/
def PAGE_SIZE : Nat := 1000

/-- The per-submission filter of `summarize_handles`: keep submissions whose
verdict is `"OK"` and whose creation time (defaulting to 0 when absent) is
not below `START_TS`. -/
def qualifies (s : Submission) : Bool :=
  decide (s.verdict = some "OK") &&
    !decide (s.creationTimeSeconds.getD 0 < START_TS)

/-- One iteration of the submission loop of `summarize_handles` (lines
77-91): state is `(solved_local, global_solved)`.  A qualifying submission
whose key is new to the account is recorded locally and `setdefault`-ed into
the global map. -/
def processSub (st : SolvedMap × SolvedMap) (s : Submission) :
    SolvedMap × SolvedMap :=
  if qualifies s then
    let k := subKey s
    if hasKey st.1 k then st
    else (st.1 ++ [(k, s.rating)], setdefault st.2 k s.rating)
  else st

/-- The whole submission loop for one account, starting from an empty local
map and the current global map. -/
def processSubs (subs : List Submission) (glob : SolvedMap) :
    SolvedMap × SolvedMap :=
  subs.foldl processSub ([], glob)

/-- The per-account result dict entry built by `summarize_handles`
(lines 93-99); `avg_rating` is an exact rational. -/
structure Summary where
  problems : Nat
  rated_problems : Nat
  avg_rating : ℚ
deriving DecidableEq

/-- `results[h]` for a successfully fetched account: `rated` is the list of
non-null ratings of the local map's values. -/
def mkSummary (loc : SolvedMap) : Summary :=
  let rated : List Int := (loc.map (fun p => p.2)).filterMap id
  { problems := loc.length
    rated_problems := rated.length
    avg_rating :=
      if rated.length = 0 then 0
      else ((rated.map (fun r => (r : ℚ))).sum) / (rated.length : ℚ) }

/-- The per-account results dict: `results[h] = v` replaces in place when the
key is present, otherwise appends. -/
def dictInsert (m : List (String × Option Summary)) (h : String)
    (v : Option Summary) : List (String × Option Summary) :=
  if (m.find? fun p => decide (p.1 = h)).isSome then
    m.map (fun p => if p.1 = h then (h, v) else p)
  else m ++ [(h, v)]

/-- One iteration of the handle loop of `summarize_handles`: a fetch failure
stores a `none` marker and leaves the global map untouched; a success runs
the submission loop and stores the derived summary. -/
def summarizeStep (fetch : String → Except String (List Submission))
    (st : List (String × Option Summary) × SolvedMap) (h : String) :
    List (String × Option Summary) × SolvedMap :=
  match fetch h with
  | .error _ => (dictInsert st.1 h none, st.2)
  | .ok subs =>
      let lg := processSubs subs st.2
      (dictInsert st.1 h (some (mkSummary lg.1)), lg.2)

/-- `summarize_handles` from cf_multi_stats.py: returns the per-account
results dict and the global deduplicated map.  The network is abstracted as
`fetch`; an `Except.error` models `fetch_all_submissions` raising.  The
function is total: every exception of the Python body is caught. -/
def summarize_handles (fetch : String → Except String (List Submission))
    (handles : List String) :
    List (String × Option Summary) × SolvedMap :=
  handles.foldl (summarizeStep fetch) ([], [])

/-- Per-problem payload stored in the web front end's `problems` dicts
(`p_info` in app.py): optional rating and tag list. -/
structure PInfo where
  rating : Option Int
  tags : List String
deriving DecidableEq

/-- A person's accumulated problems dict in app.py. -/
abbrev ProbMap := List (ProblemKey × PInfo)

/-- `dict[k] = v`-style overwrite used to model `dict.update`: replace in
place when present, append when absent. -/
def probInsert (m : ProbMap) (p : ProblemKey × PInfo) : ProbMap :=
  if (m.find? fun q => decide (q.1 = p.1)).isSome then
    m.map (fun q => if q.1 = p.1 then p else q)
  else m ++ [p]

/-- `person_problems.update(data['problems'])` from app.py line 46:
last-writer-wins merge of one dict into another. -/
def probUpdate (m m2 : ProbMap) : ProbMap := m2.foldl probInsert m

/-- Histogram bump `h[k] = h.get(k, 0) + 1` on an association-list dict. -/
def histAdd {κ : Type} [DecidableEq κ] (h : List (κ × Nat)) (k : κ) :
    List (κ × Nat) :=
  if (h.find? fun p => decide (p.1 = k)).isSome then
    h.map (fun p => if p.1 = k then (p.1, p.2 + 1) else p)
  else h ++ [(k, 1)]

/-- The rating/tag histogram loop of app.py (lines 55-60): `if r:` tests
Python truthiness, so a rating of 0 is skipped exactly like a missing one;
every tag of a problem bumps its own bucket by one. -/
def histsOf (probs : ProbMap) : List (Int × Nat) × List (String × Nat) :=
  probs.foldl
    (fun st p =>
      let rh := match p.2.rating with
        | some v => if v = 0 then st.1 else histAdd st.1 v
        | none => st.1
      let th := p.2.tags.foldl histAdd st.2
      (rh, th))
    ([], [])

/-- The rating-histogram component alone, as its own fold. -/
def ratingHistOf (probs : ProbMap) : List (Int × Nat) :=
  probs.foldl
    (fun rh p => match p.2.rating with
      | some v => if v = 0 then rh else histAdd rh v
      | none => rh)
    []

/-- `rated_vals = [p["rating"] for p in person_problems.values() if p["rating"]]`
from app.py line 62: truthiness again drops both null and 0 ratings. -/
def ratedVals (probs : ProbMap) : List Int :=
  probs.filterMap (fun p => match p.2.rating with
    | some v => if v = 0 then none else some v
    | none => none)

/-- `len(person_problems)` from app.py line 70. -/
def totalUnique (probs : ProbMap) : Nat := probs.length

/-- `sum(rated_vals) / len(rated_vals) if rated_vals else 0` from app.py. -/
def personAvgRating (probs : ProbMap) : ℚ :=
  if (ratedVals probs).length = 0 then 0
  else ((ratedVals probs).map (fun v => (v : ℚ))).sum /
    ((ratedVals probs).length : ℚ)

/-- Lookup in a person's problems dict (`person_problems.get`-style). -/
def lookupPInfo (m : ProbMap) (k : ProblemKey) : Option PInfo :=
  (m.find? fun q => decide (q.1 = k)).map (fun q => q.2)

/-- The non-null ratings of a solved map's values (claim-side formula). -/
def ratedRatings (m : SolvedMap) : List Int := m.filterMap (fun p => p.2)

/-- The number of entries of a solved map whose rating is non-null
(claim-side formula). -/
def ratedCount (m : SolvedMap) : Nat :=
  (m.filter fun p => p.2.isSome).length

/-- A calendar date successfully parsed by `datetime.fromisoformat`; a
failed parse is modelled as `none` at the use sites. -/
structure Date where
  year : Nat
  month : Nat
  day : Nat
deriving DecidableEq

/-- The date-range block of app.py `index` (lines 21-28): if either date
fails to parse, the handler returns the "Invalid date range." error page;
otherwise `start_ts` is midnight UTC of `start` and `end_ts` is midnight
UTC of `end` plus one day.  No other validation is performed. -/
def indexWindow (s e : Option Date) : Except String (Int × Int) :=
  match s, e with
  | some sd, some ed =>
      .ok (dateToTimestamp sd.year sd.month sd.day,
        dateToTimestamp ed.year ed.month ed.day + 86400)
  | _, _ => .error "Invalid date range."

/-- Modelled from the spec: the half-open membership test
`start_ts ≤ t < end_ts` that `_process_handle` (imported by app.py but
absent from src/) applies to each submission's creation timestamp. -/
def inWindow (startTs endTs t : Int) : Bool :=
  decide (startTs ≤ t) && decide (t < endTs)

/-- The per-handle payload of `handle_data_map` in app.py: the stats dict
(None on fetch failure) and the problems dict. -/
structure HandleData where
  stats : Option Summary
  problems : ProbMap
deriving DecidableEq

/-- One entry of the posted `people_json`. -/
structure Person where
  name : String
  handles : List String
deriving DecidableEq

/-- What app.py appends to `people_results` for one person. -/
structure PersonResult where
  name : String
  handleStats : List (String × Option Summary)
  total_unique : Nat
  avg_rating : ℚ
  rating_hist : List (Int × Nat)
  tag_hist : List (String × Nat)
deriving DecidableEq

/-- The person loop of app.py `index` (lines 38-67): accumulate
`person_problems` by `dict.update` over the person's handles (skipping
handles whose stats are None, which still get a null marker), then derive
the statistics. -/
def personResultOf (dataMap : String → Option HandleData) (person : Person) :
    PersonResult :=
  let st := person.handles.foldl
    (fun (st : ProbMap × List (String × Option Summary)) h =>
      match dataMap h with
      | some d =>
          match d.stats with
          | some s => (probUpdate st.1 d.problems, st.2 ++ [(h, some s)])
          | none => (st.1, st.2 ++ [(h, none)])
      | none => (st.1, st.2 ++ [(h, none)]))
    ([], [])
  { name := person.name
    handleStats := st.2
    total_unique := totalUnique st.1
    avg_rating := personAvgRating st.1
    rating_hist := (histsOf st.1).1
    tag_hist := (histsOf st.1).2 }

/-- The POST branch of app.py `index`: parse the window, and only on
success fetch every handle (network, abstracted as `fetchH` applied at the
computed timestamps) and aggregate per person. -/
def indexPost (people : List Person) (s e : Option Date)
    (fetchH : String → Int → Int → Option HandleData) :
    Except String (List PersonResult) :=
  match indexWindow s e with
  | .error msg => .error msg
  | .ok w => .ok (people.map (personResultOf (fun h => fetchH h w.1 w.2)))

instance {ε α : Type} [DecidableEq ε] [DecidableEq α] :
    DecidableEq (Except ε α) := fun a b =>
  match a, b with
  | .error e1, .error e2 =>
      decidable_of_iff (e1 = e2) ⟨fun h => h ▸ rfl, Except.error.inj⟩
  | .error _, .ok _ => isFalse Except.noConfusion
  | .ok _, .error _ => isFalse Except.noConfusion
  | .ok a1, .ok a2 =>
      decidable_of_iff (a1 = a2) ⟨fun h => h ▸ rfl, Except.ok.inj⟩

/-- A solved-problem cache entry per the spec: optional rating and tags. -/
abbrev SolvedEntry := Option Int × List String

/-- Modelled from the spec: the persisted per-account cache record of the
Account Cache Store, which is absent from src/ (app.py imports the module
that would hold it, but the snapshot's cf_multi_stats.py has no cache). -/
structure AccountCache where
  version : Nat
  lastSeenTimestamp : Int
  solved : List (ProblemKey × SolvedEntry)
deriving DecidableEq

/-- What a read of the durable store can yield: no record, an unreadable
record, or a parsed record. -/
inductive StoredRecord where
  | missing
  | corrupt
  | record (c : AccountCache)
deriving DecidableEq

/-- The default record `{version: current, lastSeenTimestamp: 0, solved: {}}`. -/
def emptyCache (current : Nat) : AccountCache :=
  { version := current, lastSeenTimestamp := 0, solved := [] }

/-- Modelled from the spec: `load(account)` of the Account Cache Store
(absent from src/) — total, returning the default record on a missing
record, a corrupt record, or a version mismatch, and the stored record
otherwise. -/
def load (current : Nat) : StoredRecord → AccountCache
  | .missing => emptyCache current
  | .corrupt => emptyCache current
  | .record c => if c.version = current then c else emptyCache current

/-- The while loop of `fetch_all_submissions` (cf_multi_stats.py lines
28-54), instrumented with the trace of `(from, count)` request parameters it
issues.  `rest` is the part of the newest-first submission stream from the
current 1-based offset `i` on, so the page returned by the API for the
request `(i, pageSize)` is `rest.take pageSize`.  The loop records every
request (including the final empty or short one), appends each page, stops
on an empty page or a page shorter than the requested size, and otherwise
advances the offset by the page length. -/
def fetchAllLoop (pageSize : Nat) (rest : List Submission) (i : Nat) :
    List (Nat × Nat) × List Submission :=
  if _h0 : (rest.take pageSize).length = 0 then ([(i, pageSize)], [])
  else if _hlt : (rest.take pageSize).length < pageSize then
    ([(i, pageSize)], rest.take pageSize)
  else
    let next :=
      fetchAllLoop pageSize (rest.drop pageSize) (i + (rest.take pageSize).length)
    ((i, pageSize) :: next.1, rest.take pageSize ++ next.2)
termination_by rest.length
decreasing_by
  simp only [List.length_drop]
  have hb := List.length_take pageSize rest
  omega

/-- `fetch_all_submissions(handle)`: page through the stream starting at
offset 1 with the fixed `PAGE_SIZE`; first component is the request trace,
second the returned submission list. -/
def fetch_all_submissions (stream : List Submission) :
    List (Nat × Nat) × List Submission :=
  fetchAllLoop PAGE_SIZE stream 1

/-- The entry `summarize_handles` stores in `results` for handle `h`. -/
def resultEntry (fetch : String → Except String (List Submission))
    (h : String) : Option Summary :=
  match fetch h with
  | .error _ => none
  | .ok subs => some (mkSummary (processSubs subs []).1)

/-- How one handle transforms the global map in `summarize_handles`. -/
def globStep (fetch : String → Except String (List Submission))
    (g : SolvedMap) (h : String) : SolvedMap :=
  match fetch h with
  | .error _ => g
  | .ok subs => (processSubs subs g).2

/-- Left-biased choice on options (`a if a is not None else b`). -/
def firstSome {α : Type} (a b : Option α) : Option α :=
  match a with
  | some x => some x
  | none => b

/-- The submissions a handle contributes: its fetched list on success,
nothing on failure. -/
def okSubs (fetch : String → Except String (List Submission)) (h : String) :
    List Submission :=
  match fetch h with
  | .ok s => s
  | .error _ => []

/-- The rating of the first qualifying submission bearing key `k` in a
submission sequence, if any (claim-side formula). -/
def firstQualRating (subs : List Submission) (k : ProblemKey) :
    Option (Option Int) :=
  ((subs.filter qualifies).find? (fun s => decide (subKey s = k))).map
    (fun s => s.rating)

/-- Modelled from the spec: the early-exit pagination loop of
`fetchNewSubmissions` / `_process_handle`, which app.py imports but which is
absent from src/ (the snapshot's `fetch_all_submissions` has no lower
bound).  Per spec §4.1: pages of `pageSize` are requested starting at
1-based offset `i` (`rest` is the newest-first stream from that offset on,
so the page served is `rest.take pageSize`); submissions are scanned in
order and kept while their creation timestamp exceeds `sinceTs`; as soon as
one is ≤ `sinceTs`, fetching stops with the kept ones; an empty or short
page also stops the loop.  The first component records each `(from, count)`
request issued. -/
def fetchNewLoop (sinceTs : Int) (pageSize : Nat) (rest : List Submission)
    (i : Nat) : List (Nat × Nat) × List Submission :=
  if _h0 : (rest.take pageSize).length = 0 then ([(i, pageSize)], [])
  else
    if _hkeep : ((rest.take pageSize).takeWhile
        (fun s => decide (sinceTs < s.creationTimeSeconds.getD 0))).length <
        (rest.take pageSize).length then
      ([(i, pageSize)],
        (rest.take pageSize).takeWhile
          (fun s => decide (sinceTs < s.creationTimeSeconds.getD 0)))
    else if _hshort : (rest.take pageSize).length < pageSize then
      ([(i, pageSize)],
        (rest.take pageSize).takeWhile
          (fun s => decide (sinceTs < s.creationTimeSeconds.getD 0)))
    else
      let next := fetchNewLoop sinceTs pageSize (rest.drop pageSize)
        (i + pageSize)
      ((i, pageSize) :: next.1,
        (rest.take pageSize).takeWhile
          (fun s => decide (sinceTs < s.creationTimeSeconds.getD 0)) ++ next.2)
termination_by rest.length
decreasing_by
  simp only [List.length_drop]
  have hb := List.length_take pageSize rest
  omega

/-- Modelled from the spec: `fetchNewSubmissions(account, sinceTs)` in
unbounded mode — page size `PAGE_SIZE`, first request at offset 1. -/
def fetchNewSubmissions (sinceTs : Int) (stream : List Submission) :
    List (Nat × Nat) × List Submission :=
  fetchNewLoop sinceTs PAGE_SIZE stream 1

/-- A concrete three-submission newest-first stream used to witness C1. -/
def c1Stream : List Submission :=
  [⟨some 100, some "OK", some 1, some "A", none, []⟩,
   ⟨some 50, some "OK", some 2, some "B", none, []⟩,
   ⟨some 10, some "OK", some 3, some "C", none, []⟩]

theorem filterMap_snd_eq (m : SolvedMap) :
    (m.map (fun p => p.2)).filterMap id = m.filterMap (fun p => p.2) := by
  induction m with
  | nil => rfl
  | cons p t ih =>
      cases h : p.2 <;> simp [List.filterMap_cons, h, ih]

theorem length_filterMap_snd (m : SolvedMap) :
    (m.filterMap (fun p => p.2)).length = ratedCount m := by
  induction m with
  | nil => rfl
  | cons p t ih =>
      cases h : p.2 <;>
        simp [List.filterMap_cons, ratedCount, List.filter_cons, h,
          ratedCount] at ih ⊢ <;> omega

/-- C7: for every merged SolvedEntry map, the derived summary satisfies
`problems` = size of the map, `rated_problems` = number of entries with a
non-null rating, and `avg_rating` = arithmetic mean of the non-null ratings,
or 0 when there are none. -/
theorem claim_C7 (m : SolvedMap) :
    (mkSummary m).problems = m.length ∧
    (mkSummary m).rated_problems = ratedCount m ∧
    (mkSummary m).avg_rating =
      (if ratedCount m = 0 then 0
       else ((ratedRatings m).map (fun r => (r : ℚ))).sum /
         (ratedCount m : ℚ)) := by
  refine ⟨rfl, ?_, ?_⟩
  · simp only [mkSummary, filterMap_snd_eq, length_filterMap_snd]
  · simp only [mkSummary, filterMap_snd_eq, length_filterMap_snd,
      ratedRatings]

theorem histsOf_fst_eq (probs : ProbMap) :
    (histsOf probs).1 = ratingHistOf probs := by
  have key : ∀ (l : ProbMap) (a : List (Int × Nat)) (b : List (String × Nat)),
      (l.foldl
        (fun st p =>
          let rh := match p.2.rating with
            | some v => if v = 0 then st.1 else histAdd st.1 v
            | none => st.1
          let th := p.2.tags.foldl histAdd st.2
          (rh, th)) (a, b)).1 =
      l.foldl
        (fun rh p => match p.2.rating with
          | some v => if v = 0 then rh else histAdd rh v
          | none => rh) a := by
    intro l
    induction l with
    | nil => intro a b; rfl
    | cons p t ih => intro a b; simp only [List.foldl_cons]; exact ih _ _
  exact key probs [] []

/-- C10: in app.py's person-level aggregation, an entry whose rating equals 0
is counted in `total_unique` but excluded from the rating histogram, the
rated-values list and the average rating, exactly as if its rating were
absent: replacing `some 0` by `none` changes no derived statistic, and
dropping the entry changes neither the rating histogram, the rated values,
nor the average. -/
theorem claim_C10 (pre post : ProbMap) (k : ProblemKey) (ts : List String) :
    totalUnique (pre ++ (k, PInfo.mk (some 0) ts) :: post) =
      totalUnique (pre ++ post) + 1 ∧
    histsOf (pre ++ (k, PInfo.mk (some 0) ts) :: post) =
      histsOf (pre ++ (k, PInfo.mk none ts) :: post) ∧
    ratedVals (pre ++ (k, PInfo.mk (some 0) ts) :: post) =
      ratedVals (pre ++ (k, PInfo.mk none ts) :: post) ∧
    personAvgRating (pre ++ (k, PInfo.mk (some 0) ts) :: post) =
      personAvgRating (pre ++ (k, PInfo.mk none ts) :: post) ∧
    ratingHistOf (pre ++ (k, PInfo.mk (some 0) ts) :: post) =
      ratingHistOf (pre ++ post) ∧
    ratedVals (pre ++ (k, PInfo.mk (some 0) ts) :: post) =
      ratedVals (pre ++ post) ∧
    personAvgRating (pre ++ (k, PInfo.mk (some 0) ts) :: post) =
      personAvgRating (pre ++ post) := by
  have hvals : ratedVals (pre ++ (k, PInfo.mk (some 0) ts) :: post) =
      ratedVals (pre ++ post) := by
    simp [ratedVals, List.filterMap_append, List.filterMap_cons]
  have hvals2 : ratedVals (pre ++ (k, PInfo.mk none ts) :: post) =
      ratedVals (pre ++ post) := by
    simp [ratedVals, List.filterMap_append, List.filterMap_cons]
  have hhist : histsOf (pre ++ (k, PInfo.mk (some 0) ts) :: post) =
      histsOf (pre ++ (k, PInfo.mk none ts) :: post) := by
    simp [histsOf, List.foldl_append, List.foldl_cons]
  have hrhist : ratingHistOf (pre ++ (k, PInfo.mk (some 0) ts) :: post) =
      ratingHistOf (pre ++ post) := by
    simp [ratingHistOf, List.foldl_append, List.foldl_cons]
  refine ⟨?_, hhist, ?_, ?_, hrhist, hvals, ?_⟩
  · simp [totalUnique]; omega
  · rw [hvals, hvals2]
  · rw [personAvgRating, personAvgRating, hvals, hvals2]
  · rw [personAvgRating, personAvgRating, hvals]

theorem probInsert_lookup (m : ProbMap) (e : ProblemKey × PInfo) :
    lookupPInfo (probInsert m e) e.1 = some e.2 := by
  by_cases h : (m.find? fun q => decide (q.1 = e.1)).isSome
  · have hex : ∃ q ∈ m, q.1 = e.1 := by
      rcases List.find?_isSome.mp h with ⟨q, hq, hpq⟩
      exact ⟨q, hq, of_decide_eq_true hpq⟩
    have hmap : ∀ (l : ProbMap), (∃ q ∈ l, q.1 = e.1) →
        (l.map (fun q => if q.1 = e.1 then e else q)).find?
          (fun q => decide (q.1 = e.1)) = some e := by
      intro l
      induction l with
      | nil => rintro ⟨q, hq, -⟩; exact absurd hq (List.not_mem_nil q)
      | cons a t ih =>
          rintro ⟨q, hq, hqe⟩
          by_cases ha : a.1 = e.1
          · rw [List.map_cons, if_pos ha]
            simp [List.find?_cons]
          · have hqt : q ∈ t := by
              rcases List.mem_cons.mp hq with rfl | h'
              · exact absurd hqe ha
              · exact h'
            rw [List.map_cons, if_neg ha, List.find?_cons_of_neg]
            · exact ih ⟨q, hqt, hqe⟩
            · simp [ha]
    unfold lookupPInfo probInsert
    rw [if_pos h, hmap m hex]
    rfl
  · have hnone : m.find? (fun q => decide (q.1 = e.1)) = none :=
      Option.not_isSome_iff_eq_none.mp h
    unfold lookupPInfo probInsert
    rw [if_neg h, List.find?_append, hnone]
    simp

/-- C2 counterexample: in `summarize_handles`, `setdefault` keeps a prior
null rating even when a non-null rating (1600) arrives later for the same
key, contradicting the claim that the non-null value wins; and in app.py,
`dict.update` overwrites a prior non-null rating with a later null one,
contradicting the claim's other half on that path. -/
theorem claim_C2_cex :
    lookupRating
        (setdefault [(((some 1, some "A") : ProblemKey), (none : Option Int))]
          (some 1, some "A") (some 1600))
        (some 1, some "A") = some none ∧
    lookupRating
        (setdefault [(((some 1, some "A") : ProblemKey), (none : Option Int))]
          (some 1, some "A") (some 1600))
        (some 1, some "A") ≠ some (some 1600) ∧
    probUpdate [(((some 1, some "A") : ProblemKey), PInfo.mk (some 1600) [])]
        [(((some 1, some "A") : ProblemKey), PInfo.mk none [])] =
      [(((some 1, some "A") : ProblemKey), PInfo.mk none [])] := by
  refine ⟨by decide, by decide, by decide⟩

/-- C2 amended: the engine's merges are order-dependent, not
prefer-non-null.  In `summarize_handles`, `setdefault` is first-seen-wins:
an existing entry's rating — null or not — is never changed, so merging a
null into a non-null leaves the non-null (as claimed) but merging a non-null
into a prior null leaves the null.  In app.py's person aggregation,
`dict.update` is last-seen-wins: the incoming entry always replaces the
stored one, including a null over a non-null. -/
theorem claim_C2_amended :
    (∀ (m : SolvedMap) (k : ProblemKey) (v r : Option Int),
      lookupRating m k = some v →
        lookupRating (setdefault m k r) k = some v) ∧
    (∀ (m : ProbMap) (k : ProblemKey) (p : PInfo),
      lookupPInfo (probUpdate m [(k, p)]) k = some p) := by
  constructor
  · intro m k v r hv
    by_cases h : hasKey m k
    · simp [setdefault, h, hv]
    · exfalso
      have : m.find? (fun p => decide (p.1 = k)) = none :=
        Option.not_isSome_iff_eq_none.mp (by simpa [hasKey] using h)
      simp [lookupRating, this] at hv
  · intro m k p
    simpa using probInsert_lookup m (k, p)

/-- Witness for C2 amended, at concrete inputs. -/
theorem claim_C2_amended_witness :
    lookupRating
        (setdefault [(((some 1, some "B") : ProblemKey), some 5)]
          (some 1, some "B") none)
        (some 1, some "B") = some (some 5) ∧
    lookupPInfo
        (probUpdate [(((some 2, some "C") : ProblemKey), PInfo.mk (some 7) [])]
          [(((some 2, some "C") : ProblemKey), PInfo.mk none [])])
        (some 2, some "C") = some (PInfo.mk none []) :=
  ⟨claim_C2_amended.1 _ _ _ _ (by decide), claim_C2_amended.2 _ _ _⟩

/-- C8: the inclusive calendar window {start: 2025-11-01, end: 2025-11-01}
is converted to the half-open timestamp range
[2025-11-01T00:00:00Z, 2025-11-02T00:00:00Z); a submission at
2025-11-01T23:59:59Z (epoch 1762041599) is included and one at
2025-11-02T00:00:00Z (epoch 1762041600) is excluded. -/
theorem claim_C8 :
    indexWindow (some ⟨2025, 11, 1⟩) (some ⟨2025, 11, 1⟩) =
      .ok (1761955200, 1762041600) ∧
    inWindow 1761955200 1762041600 1762041599 = true ∧
    inWindow 1761955200 1762041600 1762041600 = false := by
  refine ⟨by decide, by decide, by decide⟩

/-- C5 counterexample: the window {start: 2025-11-02, end: 2025-11-01} has
`end < start`, yet the handler does not reject it: `indexWindow` succeeds,
and the request proceeds to fetch accounts — two different fetchers yield
different responses, so network work happens. -/
theorem claim_C5_cex :
    indexWindow (some ⟨2025, 11, 2⟩) (some ⟨2025, 11, 1⟩) =
      .ok (1762041600, 1762041600) ∧
    indexPost [⟨"P", ["A"]⟩] (some ⟨2025, 11, 2⟩) (some ⟨2025, 11, 1⟩)
        (fun _ _ _ => none) ≠
      indexPost [⟨"P", ["A"]⟩] (some ⟨2025, 11, 2⟩) (some ⟨2025, 11, 1⟩)
        (fun _ _ _ => some ⟨some ⟨1, 1, 5⟩, []⟩) := by
  refine ⟨by decide, by decide⟩

/-- C5 amended: a request whose caller-supplied dates fail to parse is
rejected with the invalid-window error before any network work begins (the
response does not depend on the fetcher), but `end < start` is not
validated: such a request is accepted and proceeds to fetch accounts. -/
theorem claim_C5_amended (people : List Person) (s e : Option Date)
    (f g : String → Int → Int → Option HandleData)
    (h : s = none ∨ e = none) :
    indexPost people s e f = .error "Invalid date range." ∧
    indexPost people s e f = indexPost people s e g := by
  rcases h with rfl | rfl
  · cases e <;> simp [indexPost, indexWindow]
  · cases s <;> simp [indexPost, indexWindow]

/-- Witness for C5 amended at a concrete unparsable input. -/
theorem claim_C5_amended_witness :
    ((none : Option Date) = none ∨ (some (Date.mk 2025 11 1) : Option Date) = none) ∧
    indexPost [⟨"P", ["A"]⟩] none (some ⟨2025, 11, 1⟩)
        (fun _ _ _ => none) = .error "Invalid date range." ∧
    indexPost [⟨"P", ["A"]⟩] none (some ⟨2025, 11, 1⟩) (fun _ _ _ => none) =
      indexPost [⟨"P", ["A"]⟩] none (some ⟨2025, 11, 1⟩)
        (fun _ _ _ => some ⟨some ⟨1, 1, 5⟩, []⟩) :=
  ⟨Or.inl rfl,
    (claim_C5_amended [⟨"P", ["A"]⟩] none (some ⟨2025, 11, 1⟩)
      (fun _ _ _ => none) (fun _ _ _ => some ⟨some ⟨1, 1, 5⟩, []⟩)
      (Or.inl rfl)).1,
    (claim_C5_amended [⟨"P", ["A"]⟩] none (some ⟨2025, 11, 1⟩)
      (fun _ _ _ => none) (fun _ _ _ => some ⟨some ⟨1, 1, 5⟩, []⟩)
      (Or.inl rfl)).2⟩

/-- C6: `load` never fails (it is a total function), and a missing record, a
corrupt record and a version-mismatched record all yield the same default
record {version: current, lastSeenTimestamp: 0, solved: {}}. -/
theorem claim_C6 (current : Nat) :
    load current .missing = emptyCache current ∧
    load current .corrupt = emptyCache current ∧
    (∀ c : AccountCache, c.version ≠ current →
      load current (.record c) = emptyCache current) ∧
    emptyCache current =
      { version := current, lastSeenTimestamp := 0, solved := [] } := by
  refine ⟨rfl, rfl, ?_, rfl⟩
  intro c hc
  simp [load, hc]

/-- Witness for C6 at a concrete version mismatch. -/
theorem claim_C6_witness :
    load 2 .missing = emptyCache 2 ∧
    (AccountCache.mk 1 77 []).version ≠ 2 ∧
    load 2 (.record (AccountCache.mk 1 77 [])) = emptyCache 2 :=
  ⟨(claim_C6 2).1, by decide, (claim_C6 2).2.2.1 _ (by decide)⟩

theorem fetchAllLoop_subs (ps : Nat) (hps : 0 < ps) :
    ∀ (n : Nat) (rest : List Submission), rest.length ≤ n → ∀ i : Nat,
      (fetchAllLoop ps rest i).2 = rest := by
  intro n
  induction n with
  | zero =>
      intro rest hlen i
      have hnil : rest = [] := List.eq_nil_of_length_eq_zero (by omega)
      subst hnil
      rw [fetchAllLoop.eq_def]
      simp
  | succ n ih =>
      intro rest hlen i
      rw [fetchAllLoop.eq_def]
      have hb := List.length_take ps rest
      split
      · next h0 =>
          have hnil : rest = [] := List.eq_nil_of_length_eq_zero (by omega)
          simp [hnil]
      · next h0 =>
          split
          · next hlt =>
              exact List.take_of_length_le (by omega)
          · next hlt =>
              have hrec := ih (rest.drop ps)
                (by simp only [List.length_drop]; omega) (i + (rest.take ps).length)
              simp only [hrec]
              exact List.take_append_drop ps rest

theorem fetchAllLoop_reqs (ps : Nat) (hps : 0 < ps) :
    ∀ (n : Nat) (rest : List Submission), rest.length ≤ n → ∀ i : Nat,
      (fetchAllLoop ps rest i).1 =
        (List.range (rest.length / ps + 1)).map (fun j => (i + j * ps, ps)) := by
  intro n
  induction n with
  | zero =>
      intro rest hlen i
      have hnil : rest = [] := List.eq_nil_of_length_eq_zero (by omega)
      subst hnil
      rw [fetchAllLoop.eq_def]
      simp [List.range_succ_eq_map]
  | succ n ih =>
      intro rest hlen i
      rw [fetchAllLoop.eq_def]
      have hb := List.length_take ps rest
      split
      · next h0 =>
          have h00 : rest.length = 0 := by omega
          simp [h00, Nat.div_eq_of_lt hps, List.range_succ_eq_map]
      · next h0 =>
          split
          · next hlt =>
              have hsh : rest.length < ps := by omega
              simp [Nat.div_eq_of_lt hsh, List.range_succ_eq_map]
          · next hlt =>
              have hfull : (rest.take ps).length = ps := by omega
              have hple : ps ≤ rest.length := by omega
              have hrec := ih (rest.drop ps)
                (by simp only [List.length_drop]; omega) (i + ps)
              have hdiv : rest.length / ps = (rest.length - ps) / ps + 1 := by
                rw [Nat.div_eq rest.length ps]
                simp [hps, hple]
              simp only [hfull, hrec, List.length_drop, hdiv]
              conv_rhs => rw [List.range_succ_eq_map]
              rw [List.map_cons, List.map_map]
              refine congrArg₂ List.cons ?_ ?_
              · simp
              · apply List.map_congr_left
                intro a _
                simp [Function.comp, Nat.succ_mul, Prod.ext_iff]
                omega

/-- C9: for every (consistent, newest-first) submission stream, the fetch
pages through the endpoint starting at offset 1 with fixed page size 1000,
appends each page in order — the returned list is the concatenation of all
fetched pages, i.e. the whole stream — and stops exactly at the first empty
or short page: the requests issued are `(1 + j*1000, 1000)` for
`j = 0 .. len/1000`, one full page per complete 1000-block plus the final
empty-or-short page. -/
theorem claim_C9 (stream : List Submission) :
    (fetch_all_submissions stream).2 = stream ∧
    (fetch_all_submissions stream).1 =
      (List.range (stream.length / PAGE_SIZE + 1)).map
        (fun j => (1 + j * PAGE_SIZE, PAGE_SIZE)) := by
  exact ⟨fetchAllLoop_subs PAGE_SIZE (by decide) stream.length stream le_rfl 1,
    fetchAllLoop_reqs PAGE_SIZE (by decide) stream.length stream le_rfl 1⟩

theorem processSub_fst_indep (subs : List Submission) :
    ∀ (loc g g' : SolvedMap),
      (subs.foldl processSub (loc, g)).1 = (subs.foldl processSub (loc, g')).1 := by
  induction subs with
  | nil => intro loc g g'; rfl
  | cons s rest ih =>
      intro loc g g'
      simp only [List.foldl_cons, processSub]
      by_cases hq : qualifies s
      · simp only [hq, if_true]
        by_cases hk : hasKey loc (subKey s)
        · simp only [hk, if_true]
          exact ih loc g g'
        · simp only [hk, if_false, Bool.false_eq_true]
          exact ih _ _ _
      · simp only [hq, if_false, Bool.false_eq_true]
        exact ih loc g g'

theorem summarize_decompose (fetch : String → Except String (List Submission)) :
    ∀ (handles : List String) (r : List (String × Option Summary))
      (g : SolvedMap),
      handles.foldl (summarizeStep fetch) (r, g) =
        (handles.foldl (fun r h => dictInsert r h (resultEntry fetch h)) r,
          handles.foldl (globStep fetch) g) := by
  intro handles
  induction handles with
  | nil => intro r g; rfl
  | cons h t ih =>
      intro r g
      simp only [List.foldl_cons]
      have hstep : summarizeStep fetch (r, g) h =
          (dictInsert r h (resultEntry fetch h), globStep fetch g h) := by
        cases hf : fetch h with
        | error e => simp [summarizeStep, resultEntry, globStep, hf]
        | ok subs =>
            simp only [summarizeStep, resultEntry, globStep, hf]
            have := processSub_fst_indep subs [] g []
            simp only [processSubs]
            rw [this]
      rw [hstep]
      exact ih _ _

theorem results_fold_map (fetch : String → Except String (List Submission)) :
    ∀ (handles : List String) (r : List (String × Option Summary)),
      (∀ h ∈ handles, (r.find? fun p => decide (p.1 = h)) = none) →
      handles.Nodup →
      handles.foldl (fun r h => dictInsert r h (resultEntry fetch h)) r =
        r ++ handles.map (fun h => (h, resultEntry fetch h)) := by
  intro handles
  induction handles with
  | nil => intro r _ _; simp
  | cons h t ih =>
      intro r hfresh hnd
      have hrh : (r.find? fun p => decide (p.1 = h)) = none :=
        hfresh h (List.mem_cons_self h t)
      have hnotin : h ∉ t := (List.nodup_cons.mp hnd).1
      rw [List.foldl_cons,
        show dictInsert r h (resultEntry fetch h) =
          r ++ [(h, resultEntry fetch h)] from by simp [dictInsert, hrh]]
      rw [ih (r ++ [(h, resultEntry fetch h)])]
      · simp
      · intro h' hh'
        rw [List.find?_append, hfresh h' (List.mem_cons_of_mem h hh')]
        have : h ≠ h' := fun he => hnotin (he ▸ hh')
        simp [List.find?_cons, this]
      · exact (List.nodup_cons.mp hnd).2

theorem filter_ne_map_entry (fetch : String → Except String (List Submission))
    (hbad : String) :
    ∀ (l : List String), (∀ h ∈ l, h ≠ hbad) →
      ((l.map (fun h => (h, resultEntry fetch h))).filter
        (fun p => decide (p.1 ≠ hbad))) =
        l.map (fun h => (h, resultEntry fetch h)) := by
  intro l hl
  induction l with
  | nil => rfl
  | cons h t ih =>
      have hh : h ≠ hbad := hl h (List.mem_cons_self h t)
      simp only [List.map_cons, List.filter_cons, decide_eq_true_eq]
      rw [if_pos (by simpa using hh)]
      rw [ih (fun h' hh' => hl h' (List.mem_cons_of_mem h hh'))]

/-- C4: a fetch failure for one account is caught and stored as a null
summary for that account only; the global solved map and every other
account's results entry are exactly those of the run without the failing
account, and the batch function is total (no exception escapes: the
embedding of `summarize_handles` returns a value for every input). -/
theorem claim_C4 (fetch : String → Except String (List Submission))
    (pre post : List String) (hbad e : String)
    (hf : fetch hbad = .error e)
    (hnd : (pre ++ hbad :: post).Nodup) :
    (summarize_handles fetch (pre ++ hbad :: post)).2 =
      (summarize_handles fetch (pre ++ post)).2 ∧
    ((summarize_handles fetch (pre ++ hbad :: post)).1.find?
        (fun p => decide (p.1 = hbad))).map (fun p => p.2) = some none ∧
    (summarize_handles fetch (pre ++ hbad :: post)).1.filter
        (fun p => decide (p.1 ≠ hbad)) =
      (summarize_handles fetch (pre ++ post)).1 := by
  have hpre : ∀ h ∈ pre, h ≠ hbad := by
    intro h hh he
    subst he
    rcases List.nodup_append.mp hnd with ⟨-, -, hdisj⟩
    exact hdisj hh (List.mem_cons_self h post)
  have hpost : ∀ h ∈ post, h ≠ hbad := by
    intro h hh he
    subst he
    rcases List.nodup_append.mp hnd with ⟨-, hcons, -⟩
    exact (List.nodup_cons.mp hcons).1 hh
  have hnd2 : (pre ++ post).Nodup := by
    rcases List.nodup_append.mp hnd with ⟨hp, hc, hdisj⟩
    rcases List.nodup_cons.mp hc with ⟨-, hpost'⟩
    exact List.nodup_append.mpr
      ⟨hp, hpost', fun a ha hb => hdisj ha (List.mem_cons_of_mem hbad hb)⟩
  unfold summarize_handles
  rw [summarize_decompose fetch (pre ++ hbad :: post) [] [],
    summarize_decompose fetch (pre ++ post) [] []]
  have hmap1 := results_fold_map fetch (pre ++ hbad :: post) []
    (fun h _ => rfl) hnd
  have hmap2 := results_fold_map fetch (pre ++ post) []
    (fun h _ => rfl) hnd2
  refine ⟨?_, ?_, ?_⟩
  · simp only [List.foldl_append, List.foldl_cons]
    rw [show globStep fetch (pre.foldl (globStep fetch) []) hbad =
      pre.foldl (globStep fetch) [] by simp [globStep, hf]]
  · rw [hmap1]
    simp only [List.nil_append, List.map_append, List.map_cons,
      List.find?_append]
    have h1 : ((pre.map (fun h => (h, resultEntry fetch h))).find?
        (fun p => decide (p.1 = hbad))) = none := by
      rw [List.find?_eq_none]
      intro p hp
      rcases List.mem_map.mp hp with ⟨h, hh, rfl⟩
      simp [hpre h hh]
    rw [h1]
    simp [List.find?_cons, resultEntry, hf]
  · rw [hmap1, hmap2]
    simp only [List.nil_append, List.map_append, List.map_cons,
      List.filter_append, List.filter_cons]
    rw [filter_ne_map_entry fetch hbad pre hpre,
      filter_ne_map_entry fetch hbad post hpost]
    simp

/-- Witness for C4 at a concrete batch of three accounts where the middle
one fails. -/
theorem claim_C4_witness :
    ((fun h => if h = "B" then Except.error "boom"
        else Except.ok ([] : List Submission)) "B" = Except.error "boom") ∧
    (["A"] ++ "B" :: ["C"]).Nodup ∧
    ((summarize_handles
        (fun h => if h = "B" then Except.error "boom"
          else Except.ok ([] : List Submission))
        (["A"] ++ "B" :: ["C"])).2 =
      (summarize_handles
        (fun h => if h = "B" then Except.error "boom"
          else Except.ok ([] : List Submission)) (["A"] ++ ["C"])).2 ∧
    ((summarize_handles
        (fun h => if h = "B" then Except.error "boom"
          else Except.ok ([] : List Submission))
        (["A"] ++ "B" :: ["C"])).1.find?
        (fun p => decide (p.1 = "B"))).map (fun p => p.2) = some none ∧
    (summarize_handles
        (fun h => if h = "B" then Except.error "boom"
          else Except.ok ([] : List Submission))
        (["A"] ++ "B" :: ["C"])).1.filter
        (fun p => decide (p.1 ≠ "B")) =
      (summarize_handles
        (fun h => if h = "B" then Except.error "boom"
          else Except.ok ([] : List Submission)) (["A"] ++ ["C"])).1) :=
  ⟨rfl, by decide,
    claim_C4 _ ["A"] ["C"] "B" "boom" rfl (by decide)⟩

theorem firstSome_assoc {α : Type} (a b c : Option α) :
    firstSome (firstSome a b) c = firstSome a (firstSome b c) := by
  cases a <;> cases b <;> rfl

theorem firstSome_none_right {α : Type} (a : Option α) :
    firstSome a none = a := by
  cases a <;> rfl

theorem firstSome_isSome_left {α : Type} (a b : Option α)
    (h : a.isSome = true) : firstSome a b = a := by
  cases a
  · exact absurd h (by simp)
  · rfl

theorem firstQualRating_cons (s : Submission) (rest : List Submission)
    (k : ProblemKey) :
    firstQualRating (s :: rest) k =
      if qualifies s && decide (subKey s = k) then some s.rating
      else firstQualRating rest k := by
  unfold firstQualRating
  by_cases hq : qualifies s
  · rw [List.filter_cons, if_pos hq, List.find?_cons]
    by_cases hk : subKey s = k
    · simp [hk, hq]
    · simp [hk, hq]
  · rw [List.filter_cons, if_neg hq]
    simp [hq]

theorem firstQualRating_append (a b : List Submission) (k : ProblemKey) :
    firstQualRating (a ++ b) k =
      firstSome (firstQualRating a k) (firstQualRating b k) := by
  unfold firstQualRating
  rw [List.filter_append, List.find?_append]
  cases ha : (a.filter qualifies).find? (fun s => decide (subKey s = k)) <;>
    simp [Option.or, firstSome]

theorem lookupRating_isSome (g : SolvedMap) (k : ProblemKey) :
    (lookupRating g k).isSome = hasKey g k := by
  unfold lookupRating hasKey
  cases g.find? (fun p => decide (p.1 = k)) <;> rfl

theorem hasKey_append_single (m : SolvedMap) (k0 k' : ProblemKey)
    (r : Option Int) :
    hasKey (m ++ [(k0, r)]) k' = (hasKey m k' || decide (k0 = k')) := by
  unfold hasKey
  rw [List.find?_append, Option.isSome_or]
  by_cases h : k0 = k' <;> simp [List.find?_cons, h]

theorem hasKey_setdefault (g : SolvedMap) (ks k' : ProblemKey)
    (r : Option Int) :
    hasKey (setdefault g ks r) k' = (hasKey g k' || decide (ks = k')) := by
  unfold setdefault
  by_cases h : hasKey g ks
  · rw [if_pos h]
    by_cases he : ks = k'
    · subst he
      simp [h]
    · simp [he]
  · rw [if_neg h]
    exact hasKey_append_single g ks k' r

theorem lookup_setdefault (g : SolvedMap) (k : ProblemKey) (r : Option Int)
    (k' : ProblemKey) :
    lookupRating (setdefault g k r) k' =
      if k' = k then firstSome (lookupRating g k') (some r)
      else lookupRating g k' := by
  unfold setdefault
  by_cases h : hasKey g k
  · rw [if_pos h]
    by_cases he : k' = k
    · subst he
      rw [if_pos rfl,
        firstSome_isSome_left _ _ (by rw [lookupRating_isSome]; exact h)]
    · rw [if_neg he]
  · rw [if_neg h]
    by_cases he : k' = k
    · subst he
      have hnone : g.find? (fun p => decide (p.1 = k')) = none :=
        Option.not_isSome_iff_eq_none.mp (by simpa [hasKey] using h)
      rw [if_pos rfl]
      unfold lookupRating
      rw [List.find?_append, hnone]
      simp [List.find?_cons, firstSome]
    · rw [if_neg he]
      unfold lookupRating
      rw [List.find?_append]
      have : List.find? (fun p => decide (p.1 = k')) [(k, r)] = none := by
        rw [List.find?_eq_none]
        intro p hp
        rw [List.mem_singleton] at hp
        subst hp
        simp only [decide_eq_true_eq]
        exact fun hk => he hk.symm
      rw [this, Option.or_none]

theorem glob_lookup_fold (k : ProblemKey) :
    ∀ (subs : List Submission) (loc g : SolvedMap),
      (∀ k', hasKey loc k' = true → hasKey g k' = true) →
      lookupRating ((subs.foldl processSub (loc, g)).2) k =
        firstSome (lookupRating g k) (firstQualRating subs k) := by
  intro subs
  induction subs with
  | nil =>
      intro loc g _
      simp only [List.foldl_nil]
      rw [show firstQualRating [] k = none from rfl, firstSome_none_right]
  | cons s rest ih =>
      intro loc g hinv
      rw [List.foldl_cons, firstQualRating_cons]
      by_cases hq : qualifies s
      · by_cases hk : hasKey loc (subKey s)
        · have hstep : processSub (loc, g) s = (loc, g) := by
            simp [processSub, hq, hk]
          rw [hstep]
          by_cases hsk : subKey s = k
          · have hgk : hasKey g k = true := hinv k (hsk ▸ hk)
            have habs : (lookupRating g k).isSome = true := by
              rw [lookupRating_isSome]; exact hgk
            rw [ih loc g hinv, firstSome_isSome_left _ _ habs,
              firstSome_isSome_left _ _ habs]
          · rw [if_neg (by simp [hq, hsk]), ih loc g hinv]
        · have hstep : processSub (loc, g) s =
              (loc ++ [(subKey s, s.rating)],
                setdefault g (subKey s) s.rating) := by
            simp [processSub, hq, hk]
          rw [hstep]
          have hinv' : ∀ k',
              hasKey (loc ++ [(subKey s, s.rating)]) k' = true →
              hasKey (setdefault g (subKey s) s.rating) k' = true := by
            intro k' hkk
            rw [hasKey_append_single] at hkk
            rw [hasKey_setdefault]
            rcases Bool.or_eq_true_iff.mp hkk with h1 | h2
            · rw [hinv k' h1]
              rfl
            · rw [h2]
              simp
          rw [ih _ _ hinv', lookup_setdefault]
          by_cases hsk : subKey s = k
          · rw [if_pos hsk.symm, if_pos (by simp [hq, hsk]),
              firstSome_assoc]
            rfl
          · rw [if_neg (fun he => hsk he.symm), if_neg (by simp [hq, hsk])]
      · have hstep : processSub (loc, g) s = (loc, g) := by
            simp [processSub, hq]
        rw [hstep, if_neg (by simp [hq]), ih loc g hinv]

theorem glob_lookup_handles (fetch : String → Except String (List Submission))
    (k : ProblemKey) :
    ∀ (handles : List String) (g : SolvedMap),
      lookupRating (handles.foldl (globStep fetch) g) k =
        firstSome (lookupRating g k)
          (firstQualRating ((handles.map (okSubs fetch)).flatten) k) := by
  intro handles
  induction handles with
  | nil =>
      intro g
      simp only [List.foldl_nil, List.map_nil, List.flatten_nil]
      rw [show firstQualRating [] k = none from rfl, firstSome_none_right]
  | cons h t ih =>
      intro g
      rw [List.foldl_cons, List.map_cons, List.flatten_cons,
        firstQualRating_append, ih (globStep fetch g h)]
      cases hf : fetch h with
      | error e =>
          rw [show globStep fetch g h = g by simp [globStep, hf],
            show okSubs fetch h = [] by simp [okSubs, hf]]
          rw [show firstQualRating [] k = none from rfl]
          rfl
      | ok subs =>
          rw [show globStep fetch g h = (processSubs subs g).2 by
              simp [globStep, hf],
            show okSubs fetch h = subs by simp [okSubs, hf]]
          unfold processSubs
          rw [glob_lookup_fold k subs [] g (by intro k' hk'; simp [hasKey] at hk'),
            firstSome_assoc]

/-- C3 counterexample: with the claim's own example shape — account "A"
solving (1,"A") and (2,"B"), account "B" solving (2,"B") and (3,"C"), where
A's submission for (2,"B") carries no rating and B's carries 1600 — the
claim predicts the global rating 1600 for (2,"B"), but `summarize_handles`
records the first rating seen, which is null. -/
theorem claim_C3_cex :
    lookupRating
        (summarize_handles
          (fun h =>
            if h = "A" then
              Except.ok
                [⟨some 1800000000, some "OK", some 1, some "A", some 1000, []⟩,
                 ⟨some 1800000001, some "OK", some 2, some "B", none, []⟩]
            else
              Except.ok
                [⟨some 1800000002, some "OK", some 2, some "B", some 1600, []⟩,
                 ⟨some 1800000003, some "OK", some 3, some "C", some 1200, []⟩])
          ["A", "B"]).2 (some 2, some "B") = some none ∧
    lookupRating
        (summarize_handles
          (fun h =>
            if h = "A" then
              Except.ok
                [⟨some 1800000000, some "OK", some 1, some "A", some 1000, []⟩,
                 ⟨some 1800000001, some "OK", some 2, some "B", none, []⟩]
            else
              Except.ok
                [⟨some 1800000002, some "OK", some 2, some "B", some 1600, []⟩,
                 ⟨some 1800000003, some "OK", some 3, some "C", some 1200, []⟩])
          ["A", "B"]).2 (some 2, some "B") ≠ some (some 1600) := by
  refine ⟨by decide, by decide⟩

/-- C3 amended: for every list of accounts processed in list order, the
global solved map holds exactly the keys of the qualifying (OK-verdict,
in-window) submissions of the successfully fetched accounts, and each key's
recorded rating is the rating carried by the FIRST qualifying submission
bearing that key — in account order, then submission order — which may be
null; it is not the first non-null rating. -/
theorem claim_C3_amended (fetch : String → Except String (List Submission))
    (handles : List String) (k : ProblemKey) :
    lookupRating (summarize_handles fetch handles).2 k =
      firstQualRating ((handles.map (okSubs fetch)).flatten) k := by
  unfold summarize_handles
  rw [summarize_decompose fetch handles [] []]
  exact glob_lookup_handles fetch k handles []

theorem takeWhile_take {α : Type} (p : α → Bool) :
    ∀ (l : List α) (n : Nat),
      (l.take n).takeWhile p = (l.takeWhile p).take n := by
  intro l
  induction l with
  | nil => intro n; simp
  | cons a t ih =>
      intro n
      cases n with
      | zero => simp
      | succ n =>
          rw [List.take_succ_cons, List.takeWhile_cons, List.takeWhile_cons]
          by_cases hpa : p a
          · rw [if_pos hpa, if_pos hpa, List.take_succ_cons, ih]
          · rw [if_neg hpa, if_neg hpa]
            simp

theorem takeWhile_eq_self_of_length {α : Type} (p : α → Bool) :
    ∀ (l : List α), (l.takeWhile p).length = l.length → l.takeWhile p = l := by
  intro l
  induction l with
  | nil => intro _; rfl
  | cons a t ih =>
      intro hlen
      rw [List.takeWhile_cons] at hlen ⊢
      by_cases hpa : p a
      · rw [if_pos hpa] at hlen ⊢
        rw [ih (by simpa using hlen)]
      · rw [if_neg hpa] at hlen
        simp at hlen
  

theorem takeWhile_split {α : Type} (p : α → Bool) :
    ∀ (l : List α) (n : Nat), (l.take n).takeWhile p = l.take n →
      l.takeWhile p = l.take n ++ (l.drop n).takeWhile p := by
  intro l
  induction l with
  | nil => intro n _; simp
  | cons a t ih =>
      intro n hall
      cases n with
      | zero => simp
      | succ n =>
          rw [List.take_succ_cons, List.takeWhile_cons] at hall
          by_cases hpa : p a
          · rw [if_pos hpa] at hall
            have htail : (t.take n).takeWhile p = t.take n := by
              exact List.cons.inj hall |>.2
            rw [List.take_succ_cons, List.drop_succ_cons,
              List.takeWhile_cons, if_pos hpa, List.cons_append,
              ih n htail]
          · rw [if_neg hpa] at hall
            exact absurd hall.symm (List.cons_ne_nil _ _)

theorem length_takeWhile_lt_of_exists {α : Type} (p : α → Bool) :
    ∀ (l : List α), (∃ s ∈ l, p s = false) →
      (l.takeWhile p).length < l.length := by
  intro l
  induction l with
  | nil => rintro ⟨s, hs, -⟩; exact absurd hs (List.not_mem_nil s)
  | cons a t ih =>
      rintro ⟨s, hs, hps⟩
      rw [List.takeWhile_cons]
      by_cases hpa : p a
      · rw [if_pos hpa]
        have hst : s ∈ t := by
          rcases List.mem_cons.mp hs with rfl | h'
          · rw [hpa] at hps; cases hps
          · exact h'
        simpa using ih ⟨s, hst, hps⟩
      · rw [if_neg hpa]
        simp

theorem takeWhile_eq_filter_of_sorted (T : Int) :
    ∀ (l : List Submission),
      l.Pairwise (fun a b =>
        b.creationTimeSeconds.getD 0 ≤ a.creationTimeSeconds.getD 0) →
      l.takeWhile (fun s => decide (T < s.creationTimeSeconds.getD 0)) =
        l.filter (fun s => decide (T < s.creationTimeSeconds.getD 0)) := by
  intro l
  induction l with
  | nil => intro _; rfl
  | cons a t ih =>
      intro hsort
      rcases List.pairwise_cons.mp hsort with ⟨ha, ht⟩
      rw [List.takeWhile_cons, List.filter_cons]
      by_cases hpa : T < a.creationTimeSeconds.getD 0
      · rw [if_pos (by simpa using hpa), if_pos (by simpa using hpa), ih ht]
      · rw [if_neg (by simpa using hpa), if_neg (by simpa using hpa)]
        symm
        rw [List.filter_eq_nil_iff]
        intro b hb
        simp only [decide_eq_true_eq]
        have : b.creationTimeSeconds.getD 0 ≤ a.creationTimeSeconds.getD 0 :=
          ha b hb
        omega

theorem fetchNewLoop_subs (T : Int) (ps : Nat) (hps : 0 < ps) :
    ∀ (n : Nat) (rest : List Submission), rest.length ≤ n → ∀ i : Nat,
      (fetchNewLoop T ps rest i).2 =
        rest.takeWhile (fun s => decide (T < s.creationTimeSeconds.getD 0)) := by
  intro n
  induction n with
  | zero =>
      intro rest hlen i
      have hnil : rest = [] := List.eq_nil_of_length_eq_zero (by omega)
      subst hnil
      rw [fetchNewLoop.eq_def]
      simp
  | succ n ih =>
      intro rest hlen i
      rw [fetchNewLoop.eq_def]
      have hb := List.length_take ps rest
      have htw := takeWhile_take
        (fun s => decide (T < s.creationTimeSeconds.getD 0)) rest ps
      have htwlen := List.length_take ps
        (rest.takeWhile (fun s => decide (T < s.creationTimeSeconds.getD 0)))
      have htwle : (rest.takeWhile
          (fun s => decide (T < s.creationTimeSeconds.getD 0))).length ≤
          rest.length := by
        simpa using List.length_le_of_sublist (List.takeWhile_sublist _)
      split
      · next h0 =>
          have hnil : rest = [] := List.eq_nil_of_length_eq_zero (by omega)
          simp [hnil]
      · next h0 =>
          split
          · next hkeep =>
              rw [htw] at hkeep ⊢
              exact List.take_of_length_le (by omega)
          · next hkeep =>
              split
              · next hshort =>
                  have hrest : rest.take ps = rest :=
                    List.take_of_length_le (by omega)
                  rw [hrest]
              · next hshort =>
                  have hfull : (rest.take ps).length = ps := by omega
                  have hkeq : ((rest.take ps).takeWhile
                      (fun s => decide (T < s.creationTimeSeconds.getD 0))) =
                      rest.take ps := by
                    apply takeWhile_eq_self_of_length
                    rw [htw] at hkeep ⊢
                    omega
                  have hrec := ih (rest.drop ps)
                    (by simp only [List.length_drop]; omega) (i + ps)
                  simp only [hrec]
                  rw [hkeq]
                  exact (takeWhile_split _ rest ps hkeq).symm

theorem fetchNewLoop_reqs (T : Int) (ps : Nat) (hps : 0 < ps) :
    ∀ (n : Nat) (rest : List Submission), rest.length ≤ n →
      (rest.takeWhile
        (fun s => decide (T < s.creationTimeSeconds.getD 0))).length <
        rest.length →
      ∀ i : Nat,
      (fetchNewLoop T ps rest i).1.length =
        (rest.takeWhile
          (fun s => decide (T < s.creationTimeSeconds.getD 0))).length / ps
          + 1 := by
  intro n
  induction n with
  | zero =>
      intro rest hlen hbound i
      have hnil : rest = [] := List.eq_nil_of_length_eq_zero (by omega)
      subst hnil
      simp at hbound
  | succ n ih =>
      intro rest hlen hbound i
      rw [fetchNewLoop.eq_def]
      have hb := List.length_take ps rest
      have htw := takeWhile_take
        (fun s => decide (T < s.creationTimeSeconds.getD 0)) rest ps
      have htwlen := List.length_take ps
        (rest.takeWhile (fun s => decide (T < s.creationTimeSeconds.getD 0)))
      have htwle : (rest.takeWhile
          (fun s => decide (T < s.creationTimeSeconds.getD 0))).length ≤
          rest.length := by
        simpa using (List.takeWhile_sublist
          (fun s => decide (T < s.creationTimeSeconds.getD 0))
          (l := rest)).length_le
      split
      · next h0 => omega
      · next h0 =>
          split
          · next hkeep =>
              rw [htw] at hkeep
              have hlt : (rest.takeWhile
                  (fun s => decide (T < s.creationTimeSeconds.getD 0))).length
                  < ps := by omega
              simp [Nat.div_eq_of_lt hlt]
          · next hkeep =>
              rw [htw] at hkeep
              split
              · next hshort => exact absurd hbound (by omega)
              · next hshort =>
                  have hple : ps ≤ (rest.takeWhile
                      (fun s => decide
                        (T < s.creationTimeSeconds.getD 0))).length := by
                    omega
                  have hkeq : ((rest.take ps).takeWhile
                      (fun s => decide (T < s.creationTimeSeconds.getD 0))) =
                      rest.take ps := by
                    apply takeWhile_eq_self_of_length
                    rw [htw]
                    omega
                  have hsplit := takeWhile_split
                    (fun s => decide (T < s.creationTimeSeconds.getD 0))
                    rest ps hkeq
                  have hdl : ((rest.drop ps).takeWhile
                      (fun s => decide
                        (T < s.creationTimeSeconds.getD 0))).length =
                      (rest.takeWhile
                        (fun s => decide
                          (T < s.creationTimeSeconds.getD 0))).length - ps := by
                    have hlen2 := congrArg List.length hsplit
                    rw [List.length_append, List.length_take] at hlen2
                    omega
                  have hrec := ih (rest.drop ps)
                    (by simp only [List.length_drop]; omega)
                    (by rw [hdl]; simp only [List.length_drop]; omega)
                    (i + ps)
                  rw [hdl] at hrec
                  simp only [List.length_cons, hrec]
                  have hdiv : (rest.takeWhile
                      (fun s => decide
                        (T < s.creationTimeSeconds.getD 0))).length / ps =
                      ((rest.takeWhile
                        (fun s => decide
                          (T < s.creationTimeSeconds.getD 0))).length - ps) / ps
                        + 1 := by
                    rw [Nat.div_eq]
                    simp [hps, hple]
                  omega

/-- C1: for an account with lower bound `sinceTs = T`, and any submission
stream sorted newest-first in which some submission has timestamp ≤ T, the
fetch returns exactly the submissions with timestamp > T — which form a
prefix of the stream — and requests no page beyond the one containing the
boundary submission: the boundary sits at 0-based index `b` (the length of
the kept prefix), inside 0-based page `b / PAGE_SIZE`, and exactly
`b / PAGE_SIZE + 1` page requests are issued. -/
theorem claim_C1 (T : Int) (stream : List Submission)
    (hsort : stream.Pairwise (fun a b =>
      b.creationTimeSeconds.getD 0 ≤ a.creationTimeSeconds.getD 0))
    (hex : ∃ s ∈ stream, s.creationTimeSeconds.getD 0 ≤ T) :
    (fetchNewSubmissions T stream).2 =
      stream.takeWhile (fun s => decide (T < s.creationTimeSeconds.getD 0)) ∧
    (fetchNewSubmissions T stream).2 =
      stream.filter (fun s => decide (T < s.creationTimeSeconds.getD 0)) ∧
    (fetchNewSubmissions T stream).1.length =
      (stream.takeWhile
        (fun s => decide (T < s.creationTimeSeconds.getD 0))).length /
        PAGE_SIZE + 1 := by
  unfold fetchNewSubmissions
  have hsubs := fetchNewLoop_subs T PAGE_SIZE (by decide) stream.length
    stream le_rfl 1
  have hex' : ∃ s ∈ stream,
      (fun s => decide (T < s.creationTimeSeconds.getD 0)) s = false := by
    rcases hex with ⟨s, hs, hts⟩
    exact ⟨s, hs, by simpa using not_lt.mpr hts⟩
  have hbound := length_takeWhile_lt_of_exists
    (fun s => decide (T < s.creationTimeSeconds.getD 0)) stream hex'
  refine ⟨hsubs, ?_, ?_⟩
  · rw [hsubs]
    exact takeWhile_eq_filter_of_sorted T stream hsort
  · exact fetchNewLoop_reqs T PAGE_SIZE (by decide) stream.length stream
      le_rfl hbound 1

/-- Witness for C1: timestamps 100, 50, 10 with lower bound 50 — the second
submission hits the boundary, one page is requested, and only the first
submission is returned. -/
theorem claim_C1_witness :
    c1Stream.Pairwise (fun a b =>
      b.creationTimeSeconds.getD 0 ≤ a.creationTimeSeconds.getD 0) ∧
    (∃ s ∈ c1Stream, s.creationTimeSeconds.getD 0 ≤ 50) ∧
    ((fetchNewSubmissions 50 c1Stream).2 = c1Stream.takeWhile
        (fun s => decide (50 < s.creationTimeSeconds.getD 0)) ∧
      (fetchNewSubmissions 50 c1Stream).2 = c1Stream.filter
        (fun s => decide (50 < s.creationTimeSeconds.getD 0)) ∧
      (fetchNewSubmissions 50 c1Stream).1.length =
        (c1Stream.takeWhile
          (fun s => decide (50 < s.creationTimeSeconds.getD 0))).length /
          PAGE_SIZE + 1) :=
  ⟨by decide, by decide, claim_C1 50 c1Stream (by decide) (by decide)⟩
